import Mathlib

set_option autoImplicit false

/-!
Verification of the gizio field-resolution and particle-selection engine.

The engine is embedded shallowly: FormatSpec, Header, RawStore files,
FieldResolver and ParticleSelector are plain Lean structures and functions,
and fallible operations return `Except Err`.  The package's Python sources
are not available, so every definition is modelled from the design
specification (and the behaviour demonstrated in the shipped documentation,
e.g. the `Potential` raw-key example of the user guide).
-/

namespace Gizio

/-- Modelled from the spec: number of True entries of a boolean mask. -/
def countTrue : List Bool → Nat
  | [] => 0
  | true :: l => countTrue l + 1
  | false :: l => countTrue l

/-- Modelled from the spec: one `(raw_name, alias, unit_expression)` triple of
a FormatSpec particle-type slot. -/
structure SpecEntry where
  raw_name : String
  aliasName : String
  unit : String
deriving DecidableEq

/-- Modelled from the spec: FormatSpec, an ordered list of particle-type
slots, each an ordered sequence of field triples. -/
structure FormatSpec where
  fieldSpec : List (List SpecEntry)
deriving DecidableEq

/-- Modelled from the spec: one container file of the RawStore: per-type
local particle counts plus flat arrays keyed by (particle type, raw name). -/
structure RawFile where
  counts : List Nat
  data : List (Nat × String × List Int)
deriving DecidableEq

/-- Modelled from the spec: the Header; only the global per-type particle
counts matter to the claims under verification. -/
structure Header where
  nPart : List Nat
deriving DecidableEq

/-- Modelled from the spec: a snapshot bundles the Header, the FormatSpec and
the ordered list of constituent files. -/
structure Snapshot where
  header : Header
  spec : FormatSpec
  files : List RawFile
deriving DecidableEq

/-- Modelled from the spec: a unit-tagged numeric array. -/
structure TaggedArray where
  unit : String
  data : List Int
deriving DecidableEq

/-- Modelled from the spec: the selector state a derived-field function
receives: the snapshot reference and the per-type boolean masks of the
restricted selector. -/
structure SelCore where
  snap : Snapshot
  masks : List (List Bool)

/-- Modelled from the spec: a derived-field function, computing a unit-tagged
array from the selector restricted to one particle type. -/
def DerivedFun : Type := SelCore → TaggedArray

/-- Modelled from the spec: a ParticleSelector: for each particle type a
boolean mask of that type's global length (all-False for untouched types), a
reference to the snapshot, and a per-instance derived-field registry. -/
structure Selector where
  snap : Snapshot
  masks : List (List Bool)
  registry : List (String × DerivedFun)

/-- Modelled from the spec: the error kinds of the error-handling design:
KeyNotFound, ShapeMismatch and IncompatibleSelector. -/
inductive Err where
  | keyNotFound (ptype : Nat) (key : String)
  | shapeMismatch
  | incompatibleSelector
deriving DecidableEq

/-- Modelled from the spec: the global particle count of one type. -/
def nPartOf (snap : Snapshot) (t : Nat) : Nat := snap.header.nPart.getD t 0

/-- Modelled from the spec: the mask of one particle type. -/
def maskOf (sel : Selector) (t : Nat) : List Bool := sel.masks.getD t []

/-- Modelled from the spec: count() is the sum over types of the number of
True entries of that type's mask. -/
def Selector.count (sel : Selector) : Nat := (sel.masks.map countTrue).sum

/-- Modelled from the spec: ascending indices of the active types, the types
whose mask has at least one True entry. -/
def activeIdx (sel : Selector) : List Nat :=
  (List.range sel.masks.length).filter (fun t => (sel.masks.getD t []).any (fun b => b))

/-- Modelled from the spec: the structural invariant that each per-type mask
has exactly that type's global particle count as its length. -/
def MasksWF (sel : Selector) : Prop :=
  List.Forall₂ (fun (m : List Bool) (n : Nat) => m.length = n) sel.masks sel.snap.header.nPart

/-- Modelled from the spec: per-file consistency: every stored array has the
file's local particle count of its type as its length. -/
def FileWF (f : RawFile) : Prop :=
  ∀ e ∈ f.data, (e.2.2 : List Int).length = f.counts.getD e.1 0

/-- Modelled from the spec: snapshot consistency: all files are well formed
and summing per-file per-type counts yields the Header's global counts. -/
def SnapWF (snap : Snapshot) : Prop :=
  (∀ f ∈ snap.files, FileWF f) ∧
  ∀ t, nPartOf snap t = (snap.files.map (fun f => f.counts.getD t 0)).sum

/-- Modelled from the spec: elementwise per-type composition of two mask
tables (both operands carry one mask per type slot). -/
def composeMasks (f : Bool → Bool → Bool) (a b : List (List Bool)) : List (List Bool) :=
  List.zipWith (List.zipWith f) a b

/-- Modelled from the spec: the derived-field registry of a composed
selector: only aliases registered in both operands survive (the user guide:
only keys from both operands are kept in the result), with the left
operand's functions. -/
def composeRegistry (A B : Selector) : List (String × DerivedFun) :=
  A.registry.filter (fun p => decide (p.1 ∈ B.registry.map (fun q => q.1)))

/-- Modelled from the spec: union of selectors: per-type boolean OR; the
operands must reference the same Header, else IncompatibleSelector. -/
def Selector.or (A B : Selector) : Except Err Selector :=
  if A.snap.header = B.snap.header then
    .ok ⟨A.snap, composeMasks (fun x y => x || y) A.masks B.masks, composeRegistry A B⟩
  else .error .incompatibleSelector

/-- Modelled from the spec: intersection of selectors: per-type boolean AND;
the operands must reference the same Header, else IncompatibleSelector. -/
def Selector.and (A B : Selector) : Except Err Selector :=
  if A.snap.header = B.snap.header then
    .ok ⟨A.snap, composeMasks (fun x y => x && y) A.masks B.masks, composeRegistry A B⟩
  else .error .incompatibleSelector

/-- Modelled from the spec: difference of selectors: per-type boolean AND-NOT
(left mask with the right mask's True positions cleared); the operands must
reference the same Header, else IncompatibleSelector. -/
def Selector.sub (A B : Selector) : Except Err Selector :=
  if A.snap.header = B.snap.header then
    .ok ⟨A.snap, composeMasks (fun x y => x && !y) A.masks B.masks, composeRegistry A B⟩
  else .error .incompatibleSelector

/-- Modelled from the spec: the predefined universal selector of a snapshot,
whose mask is all-True for every type. -/
def universal (snap : Snapshot) (reg : List (String × DerivedFun)) : Selector :=
  ⟨snap, snap.header.nPart.map (fun n => List.replicate n true), reg⟩

/-- Modelled from the spec: refine one per-type mask against one segment of
the refining boolean array: each True position of the old mask consumes the
next entry of the array and survives only if that entry is True; False
positions stay False.  Returns the new mask and the unconsumed remainder. -/
def refineMask : List Bool → List Bool → List Bool × List Bool
  | [], m => ([], m)
  | false :: old, m =>
      let r := refineMask old m
      (false :: r.1, r.2)
  | true :: old, [] =>
      let r := refineMask old []
      (true :: r.1, r.2)
  | true :: old, x :: m =>
      let r := refineMask old m
      (x :: r.1, r.2)

/-- Modelled from the spec: thread the refining boolean array through the
per-type masks in ascending type-index order. -/
def refineMasks : List (List Bool) → List Bool → List (List Bool) × List Bool
  | [], m => ([], m)
  | mask :: rest, m =>
      let r := refineMask mask m
      let r2 := refineMasks rest r.2
      (r.1 :: r2.1, r2.2)

/-- Modelled from the spec: refinement selector[boolean_array]: fails with
ShapeMismatch unless the array length equals count(); otherwise the array is
split into per-type segments in ascending type order and the masks are
narrowed accordingly; the derived-field registry is kept. -/
def Selector.refine (sel : Selector) (m : List Bool) : Except Err Selector :=
  if m.length = sel.count then
    .ok ⟨sel.snap, (refineMasks sel.masks m).1, sel.registry⟩
  else .error .shapeMismatch

/-- Modelled from the spec: the first triple of the type's FormatSpec slot
whose raw name or alias matches the key. -/
def findTriple (spec : FormatSpec) (t : Nat) (key : String) : Option SpecEntry :=
  (spec.fieldSpec.getD t []).find? (fun e => e.raw_name == key || e.aliasName == key)

/-- Modelled from the spec: the flat array a file stores under (type, raw
name), if present. -/
def lookupRaw (f : RawFile) (t : Nat) (raw : String) : Option (List Int) :=
  (f.data.find? (fun e => e.1 == t && e.2.1 == raw)).map (fun e => e.2.2)

/-- Modelled from the spec: fetch a raw field from every constituent file and
concatenate in file order; a field absent from any file is unavailable. -/
def readAll (files : List RawFile) (t : Nat) (raw : String) : Option (List Int) :=
  match files with
  | [] => some []
  | f :: rest =>
      match lookupRaw f t raw, readAll rest t raw with
      | some d, some ds => some (d ++ ds)
      | _, _ => none

/-- Modelled from the spec: the selector restricted to one particle type: the
type's mask is kept, every other mask becomes all-False of its length. -/
def restrict (sel : Selector) (t : Nat) : SelCore :=
  ⟨sel.snap, (List.range sel.masks.length).map (fun i =>
      if i = t then sel.masks.getD i [] else List.replicate (sel.masks.getD i []).length false)⟩

/-- Modelled from the spec: FieldResolver.resolve for one particle type.
Lookup order: (1) a FormatSpec raw-name or alias match fetches the triple's
raw data from every file in file order and tags it with the triple's unit
expression (a declared-but-absent field surfaces as KeyNotFound); (2) a raw
on-disk field name with no triple is fetched and tagged dimensionless, as the
shipped documentation shows for unrecognized keys such as Potential; (3) a
registered derived field is invoked on the selector restricted to the type
and its length validated against the type's global particle count, failing
with ShapeMismatch on a wrong length; (4) otherwise the resolution fails with
KeyNotFound naming the type and the key. -/
def resolve (sel : Selector) (t : Nat) (key : String) : Except Err TaggedArray :=
  match findTriple sel.snap.spec t key with
  | some e =>
      match readAll sel.snap.files t e.raw_name with
      | some d => .ok ⟨e.unit, d⟩
      | none => .error (.keyNotFound t key)
  | none =>
      match readAll sel.snap.files t key with
      | some d => .ok ⟨"", d⟩
      | none =>
          match List.lookup key sel.registry with
          | some f =>
              if (f (restrict sel t)).data.length = nPartOf sel.snap t then
                .ok (f (restrict sel t))
              else .error .shapeMismatch
          | none => .error (.keyNotFound t key)

/-- Modelled from the spec: keep the rows of a per-type array selected by the
type's boolean mask. -/
def applyMask : List Bool → List Int → List Int
  | [], _ => []
  | _ :: _, [] => []
  | true :: bs, x :: xs => x :: applyMask bs xs
  | false :: bs, _ :: xs => applyMask bs xs

/-- Modelled from the spec: walk the per-type masks in ascending type order
starting at type index t; for every type with a non-empty mask resolve the
key and keep the masked rows, failing on the first per-type failure. -/
def gatherParts (sel : Selector) (key : String) : Nat → List (List Bool) → Except Err (List TaggedArray)
  | _, [] => .ok []
  | t, mask :: rest =>
      if mask.any (fun b => b) then
        match resolve sel t key with
        | .error err => .error err
        | .ok a =>
            match gatherParts sel key (t + 1) rest with
            | .error err => .error err
            | .ok parts => .ok (⟨a.unit, applyMask mask a.data⟩ :: parts)
      else gatherParts sel key (t + 1) rest

/-- Modelled from the spec: selector[key]: per-type resolution, masking and
concatenation in ascending type-index order; the result carries the unit tag
of the first active part. -/
def getField (sel : Selector) (key : String) : Except Err TaggedArray :=
  match gatherParts sel key 0 sel.masks with
  | .error err => .error err
  | .ok parts => .ok ⟨((parts.head?).map TaggedArray.unit).getD "", (parts.map TaggedArray.data).flatten⟩

/-- Modelled from the spec: raw names a single file stores for one type. -/
def fileRawNames (f : RawFile) (t : Nat) : List String :=
  f.data.filterMap (fun e => if e.1 == t then some e.2.1 else none)

/-- Modelled from the spec: raw on-disk names available for one type, i.e.
present in every constituent file. -/
def presentRawNames (snap : Snapshot) (t : Nat) : List String :=
  match snap.files with
  | [] => []
  | f :: _ => (fileRawNames f t).filter (fun r => (readAll snap.files t r).isSome)

/-- Modelled from the spec: direct keys of one type: the available raw names
together with the aliases of FormatSpec triples whose raw field is
available. -/
def typeDirectKeys (snap : Snapshot) (t : Nat) : List String :=
  presentRawNames snap t ++
    (snap.spec.fieldSpec.getD t []).filterMap
      (fun e => if (readAll snap.files t e.raw_name).isSome then some e.aliasName else none)

/-- Modelled from the spec: the key set of one type: raw names, aliases and
registered derived aliases. -/
def typeKeys (sel : Selector) (t : Nat) : List String :=
  typeDirectKeys sel.snap t ++ sel.registry.map (fun p => p.1)

/-- Modelled from the spec: keys() of a selector: the per-type key sets of
the active types, reduced by intersection across all active types. -/
def Selector.keys (sel : Selector) : List String :=
  match activeIdx sel with
  | [] => []
  | t :: ts => ts.foldl (fun acc u => acc.filter (fun s => decide (s ∈ typeKeys sel u))) (typeKeys sel t)

/-- Modelled from the spec: a minimal snapshot for the concrete two-type
scenario of the testable properties: type-0 count 10, type-1 count 5. -/
def demoSnap : Snapshot := ⟨⟨[10, 5]⟩, ⟨[[], []]⟩, []⟩

/-- Modelled from the spec: the default type-0 selector of the two-type
scenario (all-True mask for type 0, all-False mask for type 1). -/
def demoT0 : Selector := ⟨demoSnap, [List.replicate 10 true, List.replicate 5 false], []⟩

/-- Modelled from the spec: the default type-1 selector of the two-type
scenario (all-False mask for type 0, all-True mask for type 1). -/
def demoT1 : Selector := ⟨demoSnap, [List.replicate 10 false, List.replicate 5 true], []⟩

/-- Modelled from the spec: the union of the two demo selectors. -/
def demoUnion : Selector :=
  ⟨demoSnap, composeMasks (fun x y => x || y) demoT0.masks demoT1.masks,
    composeRegistry demoT0 demoT1⟩

/-- Modelled from the spec: the intersection of the two demo selectors. -/
def demoInter : Selector :=
  ⟨demoSnap, composeMasks (fun x y => x && y) demoT0.masks demoT1.masks,
    composeRegistry demoT0 demoT1⟩

/-- Modelled from the spec: the difference of the two demo selectors. -/
def demoDiff : Selector :=
  ⟨demoSnap, composeMasks (fun x y => x && !y) demoT0.masks demoT1.masks,
    composeRegistry demoT0 demoT1⟩

/-- Modelled from the spec: the demo type-0 selector refined by a boolean
array with exactly 3 True entries (the quickstart masking scenario). -/
def demoRefined : Selector :=
  ⟨demoSnap,
    (refineMasks demoT0.masks
      [true, false, true, false, false, true, false, false, false, false]).1,
    demoT0.registry⟩

/-- Modelled from the spec: a derived-field function computing a
temperature-like field of the right per-type length: the restricted
selector's mask is all-True in our scenarios, so its True count equals the
type's global count. -/
def tempFun : DerivedFun :=
  fun core => ⟨"K", List.replicate ((core.masks.map countTrue).sum) 0⟩

/-- Modelled from the spec: a deliberately ill-behaved derived-field function
returning an array of the wrong length. -/
def badFun : DerivedFun := fun _ => ⟨"", []⟩

/-- Modelled from the spec: a two-file, two-type snapshot exercising raw
fields, aliases, an unrecognized on-disk field (Potential) and an alias (u)
defined only for type 0. -/
def fieldSnap : Snapshot :=
  ⟨⟨[3, 2]⟩,
   ⟨[[⟨"Masses", "m", "code_mass"⟩, ⟨"InternalEnergy", "u", "code_velocity**2"⟩],
     [⟨"Masses", "m", "code_mass"⟩]]⟩,
   [⟨[2, 1],
     [(0, "Masses", [1, 2]), (0, "InternalEnergy", [7, 8]), (0, "Potential", [4, 5]),
      (1, "Masses", [10])]⟩,
    ⟨[1, 1],
     [(0, "Masses", [3]), (0, "InternalEnergy", [9]), (0, "Potential", [6]),
      (1, "Masses", [11])]⟩]⟩

/-- Modelled from the spec: the all-active selector over fieldSnap with the
temperature-like derived field registered. -/
def fieldSel : Selector :=
  ⟨fieldSnap, [List.replicate 3 true, List.replicate 2 true], [("t", tempFun)]⟩

/-- Modelled from the spec: a selector over fieldSnap whose registry holds
the ill-behaved derived field. -/
def badSel : Selector :=
  ⟨fieldSnap, [List.replicate 3 true, List.replicate 2 true], [("bad", badFun)]⟩

theorem countTrue_zipWith_or_and (a : List Bool) :
    ∀ b : List Bool, a.length = b.length →
      countTrue (List.zipWith (fun x y => x || y) a b) +
        countTrue (List.zipWith (fun x y => x && y) a b) =
      countTrue a + countTrue b := by
  induction a with
  | nil => intro b h; cases b <;> simp [countTrue] at h ⊢
  | cons x xs ih =>
    intro b h
    cases b with
    | nil => simp at h
    | cons y ys =>
      have h' : xs.length = ys.length := by simpa using h
      have hrec := ih ys h'
      cases x <;> cases y <;> simp [countTrue] <;> omega

theorem countTrue_zipWith_sub_and (a : List Bool) :
    ∀ b : List Bool, a.length = b.length →
      countTrue (List.zipWith (fun x y => x && !y) a b) +
        countTrue (List.zipWith (fun x y => x && y) a b) =
      countTrue a := by
  induction a with
  | nil => intro b h; cases b <;> simp [countTrue] at h ⊢
  | cons x xs ih =>
    intro b h
    cases b with
    | nil => simp at h
    | cons y ys =>
      have h' : xs.length = ys.length := by simpa using h
      have hrec := ih ys h'
      cases x <;> cases y <;> simp [countTrue] <;> omega

theorem forall₂_length_of_shared (a b : List (List Bool)) (n : List Nat)
    (ha : List.Forall₂ (fun (m : List Bool) (k : Nat) => m.length = k) a n)
    (hb : List.Forall₂ (fun (m : List Bool) (k : Nat) => m.length = k) b n) :
    List.Forall₂ (fun (m1 m2 : List Bool) => m1.length = m2.length) a b := by
  induction ha generalizing b with
  | nil =>
    cases hb
    exact List.Forall₂.nil
  | cons h₁ h₂ ih =>
    cases hb with
    | cons h₃ h₄ => exact List.Forall₂.cons (by omega) (ih _ h₄)

theorem sum_countTrue_or_and (a b : List (List Bool))
    (h : List.Forall₂ (fun (m1 m2 : List Bool) => m1.length = m2.length) a b) :
    ((composeMasks (fun x y => x || y) a b).map countTrue).sum +
      ((composeMasks (fun x y => x && y) a b).map countTrue).sum =
    (a.map countTrue).sum + (b.map countTrue).sum := by
  induction h with
  | nil => simp [composeMasks]
  | cons h₁ h₂ ih =>
    simp only [composeMasks, List.zipWith_cons_cons, List.map_cons, List.sum_cons] at ih ⊢
    have := countTrue_zipWith_or_and _ _ h₁
    omega

theorem sum_countTrue_sub_and (a b : List (List Bool))
    (h : List.Forall₂ (fun (m1 m2 : List Bool) => m1.length = m2.length) a b) :
    ((composeMasks (fun x y => x && !y) a b).map countTrue).sum +
      ((composeMasks (fun x y => x && y) a b).map countTrue).sum =
    (a.map countTrue).sum := by
  induction h with
  | nil => simp [composeMasks]
  | cons h₁ h₂ ih =>
    simp only [composeMasks, List.zipWith_cons_cons, List.map_cons, List.sum_cons] at ih ⊢
    have := countTrue_zipWith_sub_and _ _ h₁
    omega

/-- C1: for all selectors A, B over the same snapshot Header with well-formed
masks, count(A | B) + count(A & B) = count(A) + count(B) and
count(A - B) = count(A) - count(A & B); in the two-type scenario with
type-0 count 10, type-1 count 5 and all-True default masks,
count(type0 | type1) = 15 and count((type0 | type1) - type1) = 10. -/
theorem count_inclusion_exclusion :
    (∀ (A B U I D : Selector),
        MasksWF A → MasksWF B → A.snap.header = B.snap.header →
        Selector.or A B = .ok U → Selector.and A B = .ok I →
        Selector.sub A B = .ok D →
        U.count + I.count = A.count + B.count ∧ D.count = A.count - I.count) ∧
    (Selector.or demoT0 demoT1).map Selector.count = .ok 15 ∧
    ((Selector.or demoT0 demoT1).bind (fun u => Selector.sub u demoT1)).map
        Selector.count = .ok 10 := by
  refine ⟨?_, by rfl, by rfl⟩
  intro A B U I D hA hB hH hU hI hD
  have hB' : List.Forall₂ (fun (m : List Bool) (k : Nat) => m.length = k)
      B.masks A.snap.header.nPart := by
    rw [hH]; exact hB
  have hpair := forall₂_length_of_shared A.masks B.masks A.snap.header.nPart hA hB'
  simp only [Selector.or, if_pos hH, Except.ok.injEq] at hU
  simp only [Selector.and, if_pos hH, Except.ok.injEq] at hI
  simp only [Selector.sub, if_pos hH, Except.ok.injEq] at hD
  subst hU; subst hI; subst hD
  have h1 := sum_countTrue_or_and A.masks B.masks hpair
  have h2 := sum_countTrue_sub_and A.masks B.masks hpair
  constructor
  · simpa [Selector.count] using h1
  · simp only [Selector.count]
    omega

/-- Witness for `count_inclusion_exclusion` at the concrete two-type
scenario. -/
theorem count_inclusion_exclusion_witness :
    demoUnion.count + demoInter.count = demoT0.count + demoT1.count ∧
    demoDiff.count = demoT0.count - demoInter.count := by
  refine count_inclusion_exclusion.1 demoT0 demoT1 demoUnion demoInter demoDiff
    ?_ ?_ rfl rfl rfl rfl
  · simp [MasksWF, demoT0, demoSnap, List.forall₂_cons]
  · simp [MasksWF, demoT1, demoSnap, List.forall₂_cons]

theorem getD_zipWith_eq {α β γ : Type} (f : α → β → γ) (da : α) (db : β) (dc : γ)
    (hf : f da db = dc) :
    ∀ (a : List α) (b : List β) (i : Nat), a.length = b.length →
      (List.zipWith f a b).getD i dc = f (a.getD i da) (b.getD i db) := by
  intro a
  induction a with
  | nil =>
    intro b i h
    cases b with
    | nil => simp [hf]
    | cons y ys => simp at h
  | cons x xs ih =>
    intro b i h
    cases b with
    | nil => simp at h
    | cons y ys =>
      cases i with
      | zero => simp
      | succ j =>
        simp only [List.zipWith_cons_cons, List.getD_cons_succ]
        exact ih ys j (by simpa using h)

theorem forall₂_getD_length (a b : List (List Bool))
    (h : List.Forall₂ (fun (m1 m2 : List Bool) => m1.length = m2.length) a b) :
    ∀ t, (a.getD t []).length = (b.getD t []).length := by
  induction h with
  | nil => intro t; rfl
  | cons h₁ h₂ ih =>
    intro t
    cases t with
    | zero => simpa using h₁
    | succ u => simpa using ih u

theorem forall₂_getD_rel {α β : Type} (R : α → β → Prop) (da : α) (db : β)
    (hd : R da db) :
    ∀ {a : List α} {b : List β}, List.Forall₂ R a b →
      ∀ t, R (a.getD t da) (b.getD t db) := by
  intro a b h
  induction h with
  | nil => intro t; exact hd
  | cons h₁ h₂ ih =>
    intro t
    cases t with
    | zero => simpa using h₁
    | succ u => simpa using ih u

theorem getD_map_of_lt {α β : Type} (f : α → β) (d : α) (db : β) :
    ∀ (l : List α) (i : Nat), i < l.length → (l.map f).getD i db = f (l.getD i d) := by
  intro l
  induction l with
  | nil => intro i h; simp at h
  | cons x xs ih =>
    intro i h
    cases i with
    | zero => simp
    | succ j =>
      simp only [List.map_cons, List.getD_cons_succ]
      exact ih j (by simpa using h)

theorem getD_replicate_of_lt {α : Type} (a : α) (d : α) :
    ∀ (n i : Nat), i < n → (List.replicate n a).getD i d = a := by
  intro n
  induction n with
  | zero => intro i h; simp at h
  | succ k ih =>
    intro i h
    cases i with
    | zero => simp [List.replicate]
    | succ j =>
      simp only [List.replicate, List.getD_cons_succ]
      exact ih j (by omega)

theorem maskOf_compose (f : Bool → Bool → Bool) (A B : Selector)
    (hlen : A.masks.length = B.masks.length) (t : Nat) :
    (composeMasks f A.masks B.masks).getD t [] =
      List.zipWith f (maskOf A t) (maskOf B t) := by
  simpa [composeMasks, maskOf] using
    getD_zipWith_eq (List.zipWith f) [] [] [] rfl A.masks B.masks t hlen

/-- C7: each set-algebra operation yields per-type masks that are the
elementwise boolean operation of the operands' masks: union is per-type OR,
intersection per-type AND, difference per-type AND-NOT; and the complement
obtained by subtracting a selector from the predefined all-True universal
selector negates the selector's mask at every in-range position. -/
theorem set_algebra_mask_semantics :
    (∀ (A B U : Selector),
        MasksWF A → MasksWF B → A.snap.header = B.snap.header →
        Selector.or A B = .ok U → ∀ t i,
          (maskOf U t).getD i false =
            ((maskOf A t).getD i false || (maskOf B t).getD i false)) ∧
    (∀ (A B I : Selector),
        MasksWF A → MasksWF B → A.snap.header = B.snap.header →
        Selector.and A B = .ok I → ∀ t i,
          (maskOf I t).getD i false =
            ((maskOf A t).getD i false && (maskOf B t).getD i false)) ∧
    (∀ (A B D : Selector),
        MasksWF A → MasksWF B → A.snap.header = B.snap.header →
        Selector.sub A B = .ok D → ∀ t i,
          (maskOf D t).getD i false =
            ((maskOf A t).getD i false && !((maskOf B t).getD i false))) ∧
    (∀ (A C : Selector) (reg : List (String × DerivedFun)),
        MasksWF A → Selector.sub (universal A.snap reg) A = .ok C →
        ∀ t i, i < nPartOf A.snap t →
          (maskOf C t).getD i false = !((maskOf A t).getD i false)) := by
  have main : ∀ (f : Bool → Bool → Bool), f false false = false →
      ∀ (A B R : Selector),
        MasksWF A → MasksWF B → A.snap.header = B.snap.header →
        (if A.snap.header = B.snap.header then
            Except.ok (⟨A.snap, composeMasks f A.masks B.masks,
              composeRegistry A B⟩ : Selector)
          else Except.error Err.incompatibleSelector) = .ok R → ∀ t i,
          (maskOf R t).getD i false =
            f ((maskOf A t).getD i false) ((maskOf B t).getD i false) := by
    intro f hf A B R hA hB hH hR t i
    rw [if_pos hH, Except.ok.injEq] at hR
    have hB' : List.Forall₂ (fun (m : List Bool) (k : Nat) => m.length = k)
        B.masks A.snap.header.nPart := by
      rw [hH]; exact hB
    have hpair := forall₂_length_of_shared A.masks B.masks A.snap.header.nPart hA hB'
    have hlen : A.masks.length = B.masks.length := List.Forall₂.length_eq hpair
    have hmask : maskOf R t = List.zipWith f (maskOf A t) (maskOf B t) := by
      rw [← hR]
      exact maskOf_compose f A B hlen t
    rw [hmask]
    exact getD_zipWith_eq f false false false hf (maskOf A t) (maskOf B t) i
      (forall₂_getD_length A.masks B.masks hpair t)
  refine ⟨?_, ?_, ?_, ?_⟩
  · intro A B U hA hB hH hU
    exact main (fun x y => x || y) rfl A B U hA hB hH (by rw [← hU]; rfl)
  · intro A B I hA hB hH hI
    exact main (fun x y => x && y) rfl A B I hA hB hH (by rw [← hI]; rfl)
  · intro A B D hA hB hH hD
    exact main (fun x y => x && !y) rfl A B D hA hB hH (by rw [← hD]; rfl)
  · intro A C reg hA hC t i hi
    have hAuniv : MasksWF (universal A.snap reg) := by
      simp only [MasksWF, universal]
      clear hC hi
      induction A.snap.header.nPart with
      | nil => exact List.Forall₂.nil
      | cons n l ih => exact List.Forall₂.cons (by simp) ih
    have := main (fun x y => x && !y) rfl (universal A.snap reg) A C hAuniv hA rfl
      (by rw [← hC]; rfl) t i
    rw [this]
    have ht : t < A.snap.header.nPart.length := by
      by_contra hcon
      have : nPartOf A.snap t = 0 := by
        simp only [nPartOf]
        rw [List.getD_eq_default]
        omega
      omega
    have huniv : maskOf (universal A.snap reg) t =
        List.replicate (A.snap.header.nPart.getD t 0) true := by
      simp only [maskOf, universal]
      exact getD_map_of_lt (fun n => List.replicate n true) 0 [] A.snap.header.nPart t ht
    have hi' : i < A.snap.header.nPart.getD t 0 := hi
    rw [huniv, getD_replicate_of_lt true false _ i hi']
    simp

/-- Witness for `set_algebra_mask_semantics` at the concrete two-type
scenario, checking the OR semantics of the union at type 1, position 2. -/
theorem set_algebra_mask_semantics_witness :
    (maskOf demoUnion 1).getD 2 false =
      ((maskOf demoT0 1).getD 2 false || (maskOf demoT1 1).getD 2 false) :=
  set_algebra_mask_semantics.1 demoT0 demoT1 demoUnion
    (by simp [MasksWF, demoT0, demoSnap, List.forall₂_cons])
    (by simp [MasksWF, demoT1, demoSnap, List.forall₂_cons])
    rfl rfl 1 2

/-- C8: every set-algebra operation between selectors that do not reference
the same Header (the same per-type particle counts) fails with an
IncompatibleSelector condition, and never fails with it otherwise; the
operands, being immutable values, are unchanged. -/
theorem set_algebra_incompatible :
    ∀ A B : Selector,
      ((Selector.or A B = .error .incompatibleSelector) ↔ A.snap.header ≠ B.snap.header) ∧
      ((Selector.and A B = .error .incompatibleSelector) ↔ A.snap.header ≠ B.snap.header) ∧
      ((Selector.sub A B = .error .incompatibleSelector) ↔ A.snap.header ≠ B.snap.header) := by
  intro A B
  by_cases h : A.snap.header = B.snap.header <;>
    simp [Selector.or, Selector.and, Selector.sub, h]

theorem countTrue_cons (b : Bool) (l : List Bool) :
    countTrue (b :: l) = countTrue l + (if b then 1 else 0) := by
  cases b <;> simp [countTrue]

theorem countTrue_append (a b : List Bool) :
    countTrue (a ++ b) = countTrue a + countTrue b := by
  induction a with
  | nil => simp [countTrue]
  | cons x xs ih =>
    cases x with
    | false => simp [countTrue, ih]
    | true =>
      simp [countTrue, ih]
      omega

theorem refineMask_le : ∀ (old m : List Bool),
    List.Forall₂ (fun (x y : Bool) => x = true → y = true) (refineMask old m).1 old := by
  intro old
  induction old with
  | nil => intro m; exact List.Forall₂.nil
  | cons b bs ih =>
    intro m
    cases b with
    | false =>
      simp only [refineMask]
      exact List.Forall₂.cons (by simp) (ih m)
    | true =>
      cases m with
      | nil =>
        simp only [refineMask]
        exact List.Forall₂.cons (by simp) (ih [])
      | cons x xs =>
        simp only [refineMask]
        exact List.Forall₂.cons (fun _ => rfl) (ih xs)

theorem refineMask_spec : ∀ (old m : List Bool), countTrue old ≤ m.length →
    (refineMask old m).2 = m.drop (countTrue old) ∧
    countTrue (refineMask old m).1 = countTrue (m.take (countTrue old)) := by
  intro old
  induction old with
  | nil => intro m _; simp [refineMask, countTrue]
  | cons b bs ih =>
    intro m h
    cases b with
    | false =>
      simp only [refineMask, countTrue]
      exact ih m (by simpa [countTrue] using h)
    | true =>
      cases m with
      | nil => simp [countTrue] at h
      | cons x xs =>
        have h' : countTrue bs ≤ xs.length := by
          simp only [countTrue] at h
          simpa using Nat.le_of_succ_le_succ (by simpa [Nat.add_comm] using h)
        have := ih xs h'
        simp only [refineMask, countTrue, List.drop_succ_cons, List.take_succ_cons]
        refine ⟨this.1, ?_⟩
        rw [countTrue_cons, countTrue_cons, this.2]

theorem refineMask_take : ∀ (old m : List Bool), countTrue old ≤ m.length →
    (refineMask old m).1 = (refineMask old (m.take (countTrue old))).1 := by
  intro old
  induction old with
  | nil => intro m _; simp [refineMask]
  | cons b bs ih =>
    intro m h
    cases b with
    | false =>
      simp only [refineMask, countTrue] at h ⊢
      rw [ih m h]
    | true =>
      cases m with
      | nil => simp [countTrue] at h
      | cons x xs =>
        have h' : countTrue bs ≤ xs.length := by
          simp only [countTrue] at h
          simpa using Nat.le_of_succ_le_succ (by simpa [Nat.add_comm] using h)
        simp only [refineMask, countTrue, List.take_succ_cons]
        rw [ih xs h']

theorem refineMasks_le : ∀ (ms : List (List Bool)) (m : List Bool),
    List.Forall₂
      (fun (nm om : List Bool) =>
        List.Forall₂ (fun (x y : Bool) => x = true → y = true) nm om)
      (refineMasks ms m).1 ms := by
  intro ms
  induction ms with
  | nil => intro m; exact List.Forall₂.nil
  | cons mask rest ih =>
    intro m
    simp only [refineMasks]
    exact List.Forall₂.cons (refineMask_le mask m) (ih _)

theorem refineMasks_spec : ∀ (ms : List (List Bool)) (m : List Bool),
    (ms.map countTrue).sum ≤ m.length →
    (refineMasks ms m).2 = m.drop ((ms.map countTrue).sum) ∧
    ((refineMasks ms m).1.map countTrue).sum =
      countTrue (m.take ((ms.map countTrue).sum)) := by
  intro ms
  induction ms with
  | nil => intro m _; simp [refineMasks, countTrue]
  | cons mask rest ih =>
    intro m h
    simp only [List.map_cons, List.sum_cons] at h
    have hc : countTrue mask ≤ m.length := by omega
    have h1 := refineMask_spec mask m hc
    have hlen2 : (rest.map countTrue).sum ≤ (refineMask mask m).2.length := by
      rw [h1.1, List.length_drop]
      omega
    have h2 := ih (refineMask mask m).2 hlen2
    simp only [refineMasks, List.map_cons, List.sum_cons]
    constructor
    · rw [h2.1, h1.1, List.drop_drop]
    · rw [h2.2, h1.2, h1.1]
      rw [← countTrue_append, ← List.take_add]

theorem refineMasks_getD : ∀ (ms : List (List Bool)) (m : List Bool) (t : Nat),
    (ms.map countTrue).sum ≤ m.length →
    (refineMasks ms m).1.getD t [] =
      (refineMask (ms.getD t [])
        ((m.drop (((ms.take t).map countTrue).sum)).take (countTrue (ms.getD t [])))).1 := by
  intro ms
  induction ms with
  | nil => intro m t _; simp [refineMasks, refineMask, countTrue]
  | cons mask rest ih =>
    intro m t h
    simp only [List.map_cons, List.sum_cons] at h
    have hc : countTrue mask ≤ m.length := by omega
    have h1 := refineMask_spec mask m hc
    cases t with
    | zero =>
      simp only [refineMasks, List.getD_cons_zero, List.take_zero, List.map_nil,
        List.sum_nil, List.drop_zero]
      exact refineMask_take mask m hc
    | succ u =>
      have hlen2 : (rest.map countTrue).sum ≤ (refineMask mask m).2.length := by
        rw [h1.1, List.length_drop]
        omega
      have h2 := ih (refineMask mask m).2 u hlen2
      simp only [refineMasks, List.getD_cons_succ, List.take_succ_cons, List.map_cons,
        List.sum_cons]
      rw [h2, h1.1, List.drop_drop]

/-- C4: refinement S[m], for m of length count(S), splits m into per-type
segments in ascending type order with segment sizes the per-type True
counts, narrows each per-type mask by the corresponding segment (so each new
mask is a subset of the old one), and the refined selector's count equals
the number of True entries of m. -/
theorem refine_semantics :
    ∀ (S T : Selector) (m : List Bool),
      Selector.refine S m = .ok T →
      (∀ t, maskOf T t =
          (refineMask (maskOf S t)
            ((m.drop (((S.masks.take t).map countTrue).sum)).take
              (countTrue (maskOf S t)))).1) ∧
      (∀ t, List.Forall₂ (fun (x y : Bool) => x = true → y = true)
          (maskOf T t) (maskOf S t)) ∧
      T.count = countTrue m := by
  intro S T m hT
  simp only [Selector.refine] at hT
  split at hT
  case isFalse => cases hT
  case isTrue hlen =>
    rw [Except.ok.injEq] at hT
    have htot : (S.masks.map countTrue).sum ≤ m.length := by
      rw [hlen]; exact Nat.le_refl _
    refine ⟨?_, ?_, ?_⟩
    · intro t
      have := refineMasks_getD S.masks m t htot
      rw [← hT]
      exact this
    · intro t
      have hle := refineMasks_le S.masks m
      rw [← hT]
      simp only [maskOf]
      exact forall₂_getD_rel _ [] [] List.Forall₂.nil hle t
    · have := (refineMasks_spec S.masks m htot).2
      rw [← hT]
      simp only [Selector.count]
      rw [this]
      have hsum : (S.masks.map countTrue).sum = m.length := by
        rw [hlen]; rfl
      rw [hsum]
      exact congrArg countTrue (List.take_length m)

/-- Witness for `refine_semantics`: refining the demo type-0 selector
(count 10) with a boolean array holding exactly 3 True entries yields a
selector of count 3 whose masks are subsets of the old ones. -/
theorem refine_semantics_witness :
    demoRefined.count =
      countTrue [true, false, true, false, false, true, false, false, false, false] ∧
    List.Forall₂ (fun (x y : Bool) => x = true → y = true)
      (maskOf demoRefined 0) (maskOf demoT0 0) := by
  have h := refine_semantics demoT0 demoRefined
    [true, false, true, false, false, true, false, false, false, false] rfl
  exact ⟨h.2.2, h.2.1 0⟩

/-- C5: refinement fails with ShapeMismatch exactly when the boolean array's
length differs from count(), and a derived-field function returning an array
whose length differs from the type's global particle count makes resolution
fail with ShapeMismatch; in the pure embedding the failure yields no partial
result and leaves the operands untouched. -/
theorem shape_mismatch_conditions :
    (∀ (S : Selector) (m : List Bool),
        Selector.refine S m = .error .shapeMismatch ↔ m.length ≠ S.count) ∧
    (∀ (S : Selector) (t : Nat) (key : String) (f : DerivedFun),
        findTriple S.snap.spec t key = none →
        readAll S.snap.files t key = none →
        List.lookup key S.registry = some f →
        (f (restrict S t)).data.length ≠ nPartOf S.snap t →
        resolve S t key = .error .shapeMismatch) := by
  constructor
  · intro S m
    by_cases h : m.length = S.count <;> simp [Selector.refine, h]
  · intro S t key f h1 h2 h3 h4
    simp [resolve, h1, h2, h3, h4]

/-- Witness for `shape_mismatch_conditions`: an empty boolean array refines
the count-10 demo selector into ShapeMismatch, and the ill-behaved derived
field resolves to ShapeMismatch. -/
theorem shape_mismatch_conditions_witness :
    Selector.refine demoT0 [] = .error .shapeMismatch ∧
    resolve badSel 0 "bad" = .error .shapeMismatch := by
  constructor
  · exact (shape_mismatch_conditions.1 demoT0 []).mpr (by decide)
  · exact shape_mismatch_conditions.2 badSel 0 "bad" badFun rfl rfl rfl (by decide)

theorem countTrue_eq_zero_of_not_any (m : List Bool)
    (h : m.any (fun b => b) = false) : countTrue m = 0 := by
  induction m with
  | nil => rfl
  | cons b bs ih =>
    cases b with
    | true => simp at h
    | false =>
      simp only [List.any_cons, Bool.false_or] at h
      simpa [countTrue] using ih h

theorem applyMask_length : ∀ (mask : List Bool) (d : List Int),
    mask.length = d.length → (applyMask mask d).length = countTrue mask := by
  intro mask
  induction mask with
  | nil => intro d _; simp [applyMask, countTrue]
  | cons b bs ih =>
    intro d h
    cases d with
    | nil => simp at h
    | cons x xs =>
      cases b with
      | true => simpa [applyMask, countTrue] using ih xs (by simpa using h)
      | false => simpa [applyMask, countTrue] using ih xs (by simpa using h)

theorem lookupRaw_length (f : RawFile) (t : Nat) (raw : String) (d : List Int)
    (hwf : FileWF f) (h : lookupRaw f t raw = some d) :
    d.length = f.counts.getD t 0 := by
  simp only [lookupRaw, Option.map_eq_some'] at h
  obtain ⟨e, he, hd⟩ := h
  have hmem := List.mem_of_find?_eq_some he
  have hpred := List.find?_some he
  simp only [Bool.and_eq_true, beq_iff_eq] at hpred
  have := hwf e hmem
  rw [← hd, this, hpred.1]

theorem readAll_length : ∀ (files : List RawFile) (t : Nat) (raw : String) (d : List Int),
    (∀ f ∈ files, FileWF f) → readAll files t raw = some d →
    d.length = (files.map (fun f => f.counts.getD t 0)).sum := by
  intro files
  induction files with
  | nil =>
    intro t raw d _ h
    simp only [readAll, Option.some.injEq] at h
    simp [← h]
  | cons f rest ih =>
    intro t raw d hwf h
    simp only [readAll] at h
    cases hl : lookupRaw f t raw with
    | none => rw [hl] at h; cases h
    | some d1 =>
      rw [hl] at h
      cases hr : readAll rest t raw with
      | none => rw [hr] at h; cases h
      | some d2 =>
        rw [hr, Option.some.injEq] at h
        have h1 := lookupRaw_length f t raw d1 (hwf f (by simp)) hl
        have h2 := ih t raw d2 (fun g hg => hwf g (by simp [hg])) hr
        rw [← h, List.length_append, h1, h2]
        simp

theorem resolve_length (sel : Selector) (t : Nat) (key : String) (a : TaggedArray)
    (hwf : SnapWF sel.snap) (h : resolve sel t key = .ok a) :
    a.data.length = nPartOf sel.snap t := by
  cases hft : findTriple sel.snap.spec t key with
  | some e =>
    simp only [resolve, hft] at h
    cases hra : readAll sel.snap.files t e.raw_name with
    | some d =>
      simp only [hra, Except.ok.injEq] at h
      subst h
      show d.length = nPartOf sel.snap t
      rw [hwf.2 t]
      exact readAll_length sel.snap.files t e.raw_name d hwf.1 hra
    | none =>
      simp only [hra] at h
      exact Except.noConfusion h
  | none =>
    simp only [resolve, hft] at h
    cases hra : readAll sel.snap.files t key with
    | some d =>
      simp only [hra, Except.ok.injEq] at h
      subst h
      show d.length = nPartOf sel.snap t
      rw [hwf.2 t]
      exact readAll_length sel.snap.files t key d hwf.1 hra
    | none =>
      simp only [hra] at h
      cases hlk : List.lookup key sel.registry with
      | some f =>
        simp only [hlk] at h
        by_cases hl : (f (restrict sel t)).data.length = nPartOf sel.snap t
        · rw [if_pos hl, Except.ok.injEq] at h
          subst h
          exact hl
        · rw [if_neg hl] at h
          exact Except.noConfusion h
      | none =>
        simp only [hlk] at h
        exact Except.noConfusion h

theorem getD_of_drop_cons {α : Type} (d : α) : ∀ (l : List α) (t : Nat) (a : α) (l' : List α),
    l.drop t = a :: l' → l.getD t d = a := by
  intro l
  induction l with
  | nil => intro t a l' h; simp at h
  | cons x l2 ih =>
    intro t a l' h
    cases t with
    | zero => simpa using congrArg (fun z => z.headD d) h
    | succ u =>
      simp only [List.drop_succ_cons] at h
      simpa using ih u a l' h

theorem drop_succ_of_drop_cons {α : Type} (l : List α) (t : Nat) (a : α) (l' : List α)
    (h : l.drop t = a :: l') : l.drop (t + 1) = l' := by
  have h1 : l.drop (t + 1) = (l.drop t).drop 1 := (List.drop_drop 1 t l).symm
  rw [h1, h]
  rfl

theorem gatherParts_length (sel : Selector) (key : String) (hwf : SnapWF sel.snap) :
    ∀ (ms : List (List Bool)) (t : Nat) (parts : List TaggedArray),
      List.Forall₂ (fun (m : List Bool) (n : Nat) => m.length = n) ms
        (sel.snap.header.nPart.drop t) →
      gatherParts sel key t ms = .ok parts →
      (parts.map (fun p => p.data.length)).sum = (ms.map countTrue).sum := by
  intro ms
  induction ms with
  | nil =>
    intro t parts _ h
    simp only [gatherParts, Except.ok.injEq] at h
    simp [← h]
  | cons mask rest ih =>
    intro t parts hf h
    cases hdrop : sel.snap.header.nPart.drop t with
    | nil => rw [hdrop] at hf; cases hf
    | cons n l' =>
      rw [hdrop] at hf
      cases hf with
      | cons h1 h2 =>
        have hrest : List.Forall₂ (fun (m : List Bool) (n : Nat) => m.length = n) rest
            (sel.snap.header.nPart.drop (t + 1)) := by
          rw [drop_succ_of_drop_cons sel.snap.header.nPart t n l' hdrop]
          exact h2
        simp only [gatherParts] at h
        by_cases hany : mask.any (fun b => b) = true
        · rw [if_pos hany] at h
          cases hres : resolve sel t key with
          | error err => rw [hres] at h; cases h
          | ok a =>
            rw [hres] at h
            cases hrec : gatherParts sel key (t + 1) rest with
            | error err => rw [hrec] at h; cases h
            | ok ps =>
              rw [hrec, Except.ok.injEq] at h
              have hlen : a.data.length = nPartOf sel.snap t :=
                resolve_length sel t key a hwf hres
              have hmask : mask.length = a.data.length := by
                rw [hlen, nPartOf, getD_of_drop_cons 0 sel.snap.header.nPart t n l' hdrop]
                exact h1
              have happ := applyMask_length mask a.data hmask
              have hsum := ih (t + 1) ps hrest hrec
              rw [← h]
              simp only [List.map_cons, List.sum_cons]
              rw [happ, hsum]
        · rw [if_neg hany] at h
          have hzero : countTrue mask = 0 :=
            countTrue_eq_zero_of_not_any mask (by simpa using hany)
          have hsum := ih (t + 1) parts hrest h
          simp only [List.map_cons, List.sum_cons, hzero, hsum]
          omega

/-- C2: selector[key] returns a unit-tagged array whose length equals
count(), built by resolving the field for each non-empty-mask type in
ascending type order, applying the type's mask and concatenating; on the
concrete two-type snapshot the alias m concatenates the per-type masked
parts in ascending type order, each being the file-order concatenation of
the per-file raw arrays. -/
theorem field_access_length :
    (∀ (sel : Selector) (key : String) (arr : TaggedArray),
        SnapWF sel.snap → MasksWF sel →
        getField sel key = .ok arr →
        arr.data.length = sel.count) ∧
    getField fieldSel "m" = .ok ⟨"code_mass", [1, 2, 3, 10, 11]⟩ := by
  constructor
  · intro sel key arr hwf hm h
    simp only [getField] at h
    cases hg : gatherParts sel key 0 sel.masks with
    | error err => rw [hg] at h; cases h
    | ok parts =>
      rw [hg, Except.ok.injEq] at h
      have hsum := gatherParts_length sel key hwf sel.masks 0 parts (by simpa using hm) hg
      rw [← h]
      simp only [Selector.count]
      rw [← hsum]
      simp only [List.length_flatten, List.map_map]
      rfl
  · rfl

theorem fieldSnap_wf : SnapWF fieldSnap := by
  constructor
  · intro f hf
    simp only [fieldSnap, List.mem_cons, List.not_mem_nil, or_false] at hf
    rcases hf with rfl | rfl <;> simp only [FileWF] <;> decide
  · intro t
    match t with
    | 0 => rfl
    | 1 => rfl
    | (n + 2) => simp [nPartOf, fieldSnap, List.getD]

theorem fieldSel_masks_wf : MasksWF fieldSel := by
  simp [MasksWF, fieldSel, fieldSnap, List.forall₂_cons]

/-- Witness for `field_access_length` on the concrete two-type snapshot:
the alias m yields 5 = 3 + 2 selected values. -/
theorem field_access_length_witness :
    (⟨"code_mass", [1, 2, 3, 10, 11]⟩ : TaggedArray).data.length = fieldSel.count :=
  field_access_length.1 fieldSel "m" _ fieldSnap_wf fieldSel_masks_wf rfl

/-- Modelled from the spec: the type-0-only selector over fieldSnap (the
doc's gas selector), with the temperature-like derived field registered. -/
def gasSel : Selector :=
  ⟨fieldSnap, [List.replicate 3 true, List.replicate 2 false], [("t", tempFun)]⟩

theorem readAll_flatten : ∀ (files : List RawFile) (t : Nat) (raw : String) (d : List Int),
    readAll files t raw = some d →
    ∃ parts : List (List Int),
      List.Forall₂ (fun f p => lookupRaw f t raw = some p) files parts ∧
      d = parts.flatten := by
  intro files
  induction files with
  | nil =>
    intro t raw d h
    simp only [readAll, Option.some.injEq] at h
    exact ⟨[], List.Forall₂.nil, h.symm⟩
  | cons f rest ih =>
    intro t raw d h
    simp only [readAll] at h
    cases hl : lookupRaw f t raw with
    | none => rw [hl] at h; cases h
    | some d1 =>
      rw [hl] at h
      cases hr : readAll rest t raw with
      | none => rw [hr] at h; cases h
      | some d2 =>
        rw [hr, Option.some.injEq] at h
        obtain ⟨parts2, hp2, hflat⟩ := ih t raw d2 hr
        refine ⟨d1 :: parts2, List.Forall₂.cons hl hp2, ?_⟩
        rw [← h, hflat]
        rfl

/-- C3 counterexample: on the concrete snapshot the key Potential matches no
FormatSpec triple for type 0 and is not in the derived-field registry, yet
resolution succeeds with the on-disk data instead of failing with
KeyNotFound, refuting the claimed final clause of the lookup order. -/
theorem resolve_lookup_order_counterexample :
    findTriple gasSel.snap.spec 0 "Potential" = none ∧
    List.lookup "Potential" gasSel.registry = none ∧
    resolve gasSel 0 "Potential" = .ok ⟨"", [4, 5, 6]⟩ :=
  ⟨rfl, rfl, rfl⟩

/-- C3 (amended): resolution for a type proceeds in this order: (1) a
FormatSpec raw-name or alias match fetches the triple's raw data from every
constituent file, concatenated in file order, unit-tagged; (2) otherwise a
key naming an available on-disk field resolves to that raw data tagged
dimensionless; (3) otherwise a registered derived field is invoked and its
length validated; (4) otherwise resolution fails with KeyNotFound naming
the type and key; and on a multi-type selector an alias undefined for one
active type fails with KeyNotFound naming that type even though it is valid
for the other active type. -/
theorem resolve_lookup_order :
    (∀ (sel : Selector) (t : Nat) (key : String) (e : SpecEntry) (d : List Int),
        findTriple sel.snap.spec t key = some e →
        readAll sel.snap.files t e.raw_name = some d →
        resolve sel t key = .ok ⟨e.unit, d⟩ ∧
        ∃ parts : List (List Int),
          List.Forall₂ (fun f p => lookupRaw f t e.raw_name = some p)
            sel.snap.files parts ∧ d = parts.flatten) ∧
    (∀ (sel : Selector) (t : Nat) (key : String) (d : List Int),
        findTriple sel.snap.spec t key = none →
        readAll sel.snap.files t key = some d →
        resolve sel t key = .ok ⟨"", d⟩) ∧
    (∀ (sel : Selector) (t : Nat) (key : String) (f : DerivedFun),
        findTriple sel.snap.spec t key = none →
        readAll sel.snap.files t key = none →
        List.lookup key sel.registry = some f →
        resolve sel t key =
          (if (f (restrict sel t)).data.length = nPartOf sel.snap t then
            .ok (f (restrict sel t))
          else .error .shapeMismatch)) ∧
    (∀ (sel : Selector) (t : Nat) (key : String),
        findTriple sel.snap.spec t key = none →
        readAll sel.snap.files t key = none →
        List.lookup key sel.registry = none →
        resolve sel t key = .error (.keyNotFound t key)) ∧
    getField fieldSel "u" = .error (.keyNotFound 1 "u") := by
  refine ⟨?_, ?_, ?_, ?_, rfl⟩
  · intro sel t key e d h1 h2
    exact ⟨by simp [resolve, h1, h2], readAll_flatten sel.snap.files t e.raw_name d h2⟩
  · intro sel t key d h1 h2
    simp [resolve, h1, h2]
  · intro sel t key f h1 h2 h3
    simp [resolve, h1, h2, h3]
  · intro sel t key h1 h2 h3
    simp [resolve, h1, h2, h3]

/-- Witness for `resolve_lookup_order`: the alias m on the type-0 selector
resolves through the FormatSpec triple to the file-order concatenation of
the per-file Masses arrays. -/
theorem resolve_lookup_order_witness :
    resolve gasSel 0 "m" = .ok ⟨"code_mass", [1, 2, 3]⟩ :=
  (resolve_lookup_order.1 gasSel 0 "m" ⟨"Masses", "m", "code_mass"⟩ [1, 2, 3] rfl rfl).1

theorem gatherParts_alias (sel : Selector) (raw al : String)
    (hkey : ∀ u ∈ activeIdx sel, ∃ e, findTriple sel.snap.spec u raw = some e ∧
        findTriple sel.snap.spec u al = some e) :
    ∀ (ms : List (List Bool)) (t : Nat) (parts : List TaggedArray),
      sel.masks.drop t = ms →
      gatherParts sel raw t ms = .ok parts →
      gatherParts sel al t ms = .ok parts := by
  intro ms
  induction ms with
  | nil =>
    intro t parts _ h
    exact h
  | cons mask rest ih =>
    intro t parts hdrop h
    have hdrop' : sel.masks.drop (t + 1) = rest :=
      drop_succ_of_drop_cons sel.masks t mask rest hdrop
    simp only [gatherParts] at h ⊢
    by_cases hany : mask.any (fun b => b) = true
    · rw [if_pos hany] at h ⊢
      have hlt : t < sel.masks.length := by
        by_contra hc
        have hnil : sel.masks.drop t = [] := List.drop_eq_nil_of_le (by omega)
        rw [hnil] at hdrop
        cases hdrop
      have hget : sel.masks.getD t [] = mask :=
        getD_of_drop_cons [] sel.masks t mask rest hdrop
      have hact : t ∈ activeIdx sel := by
        simp only [activeIdx, List.mem_filter, List.mem_range]
        exact ⟨hlt, by rw [hget]; exact hany⟩
      obtain ⟨e, he1, he2⟩ := hkey t hact
      cases hra : readAll sel.snap.files t e.raw_name with
      | none =>
        have hres1 : resolve sel t raw = .error (.keyNotFound t raw) := by
          simp [resolve, he1, hra]
        simp only [hres1] at h
        exact Except.noConfusion h
      | some d =>
        have hres1 : resolve sel t raw = .ok ⟨e.unit, d⟩ := by
          simp [resolve, he1, hra]
        have hres2 : resolve sel t al = .ok ⟨e.unit, d⟩ := by
          simp [resolve, he2, hra]
        simp only [hres1] at h
        simp only [hres2]
        cases hrec : gatherParts sel raw (t + 1) rest with
        | error err =>
          simp only [hrec] at h
          exact Except.noConfusion h
        | ok ps =>
          simp only [hrec] at h
          simp only [ih (t + 1) ps hdrop' hrec]
          exact h
    · rw [if_neg hany] at h ⊢
      exact ih (t + 1) parts hdrop' h

/-- C9: alias/raw equivalence for direct fields: if for every active type
the raw name and the alias select the same FormatSpec triple, then a
successful access by raw name and the access by alias return the same
unit-tagged values: selector[raw] = .ok arr implies selector[alias] =
.ok arr. -/
theorem alias_raw_equivalence :
    ∀ (sel : Selector) (raw al : String) (arr : TaggedArray),
      (∀ u ∈ activeIdx sel, ∃ e, findTriple sel.snap.spec u raw = some e ∧
          findTriple sel.snap.spec u al = some e) →
      getField sel raw = .ok arr → getField sel al = .ok arr := by
  intro sel raw al arr hkey h
  simp only [getField] at h ⊢
  cases hg : gatherParts sel raw 0 sel.masks with
  | error err =>
    simp only [hg] at h
    exact Except.noConfusion h
  | ok parts =>
    simp only [hg] at h
    simp only [gatherParts_alias sel raw al hkey sel.masks 0 parts rfl hg]
    exact h

/-- Witness for `alias_raw_equivalence`: on the type-0 selector the raw name
Masses and its alias m return the same unit-tagged data. -/
theorem alias_raw_equivalence_witness :
    getField gasSel "m" = .ok ⟨"code_mass", [1, 2, 3]⟩ := by
  refine alias_raw_equivalence gasSel "Masses" "m" _ ?_ rfl
  intro u hu
  have hact : activeIdx gasSel = [0] := rfl
  rw [hact, List.mem_singleton] at hu
  subst hu
  exact ⟨⟨"Masses", "m", "code_mass"⟩, rfl, rfl⟩

theorem mem_foldl_filter (sel : Selector) (k : String) :
    ∀ (ts : List Nat) (init : List String),
      (k ∈ ts.foldl (fun acc u => acc.filter (fun s => decide (s ∈ typeKeys sel u))) init ↔
        (k ∈ init ∧ ∀ u ∈ ts, k ∈ typeKeys sel u)) := by
  intro ts
  induction ts with
  | nil => intro init; simp
  | cons t ts ih =>
    intro init
    simp only [List.foldl_cons]
    rw [ih]
    simp only [List.mem_filter, decide_eq_true_eq, List.forall_mem_cons]
    tauto

theorem mem_keys_iff (sel : Selector) (k : String) :
    k ∈ sel.keys ↔ (activeIdx sel ≠ [] ∧ ∀ u ∈ activeIdx sel, k ∈ typeKeys sel u) := by
  cases hact : activeIdx sel with
  | nil => simp [Selector.keys, hact]
  | cons t ts =>
    simp only [Selector.keys, hact]
    rw [mem_foldl_filter]
    simp only [List.forall_mem_cons]
    constructor
    · intro h
      exact ⟨by simp, h.1, h.2⟩
    · intro h
      exact ⟨h.2.1, h.2.2⟩

theorem present_isSome (snap : Snapshot) (u : Nat) (k : String)
    (h : k ∈ presentRawNames snap u) : (readAll snap.files u k).isSome = true := by
  cases hf : snap.files with
  | nil =>
    simp only [presentRawNames, hf] at h
    cases h
  | cons f rest =>
    simp only [presentRawNames, hf] at h
    exact (List.mem_filter.mp h).2

theorem lookup_isSome_of_mem_fst (k : String) :
    ∀ (l : List (String × DerivedFun)), k ∈ l.map Prod.fst →
      ∃ v, List.lookup k l = some v := by
  intro l
  induction l with
  | nil => intro h; cases h
  | cons p rest ih =>
    intro h
    by_cases hk : p.1 = k
    · refine ⟨p.2, ?_⟩
      show List.lookup k (p :: rest) = some p.2
      rw [show (p : String × DerivedFun) = (p.1, p.2) from rfl, List.lookup_cons]
      simp [hk]
    · simp only [List.map_cons, List.mem_cons] at h
      rcases h with h | h
      · exact absurd h.symm hk
      · obtain ⟨v, hv⟩ := ih h
        refine ⟨v, ?_⟩
        show List.lookup k (p :: rest) = some v
        rw [show (p : String × DerivedFun) = (p.1, p.2) from rfl, List.lookup_cons]
        have hbeq : (k == p.1) = false := beq_eq_false_iff_ne.mpr (fun hh => hk hh.symm)
        simp [hbeq, hv]

theorem any_zipWith_or (a : List Bool) :
    ∀ b : List Bool, a.length = b.length →
      (List.zipWith (fun x y => x || y) a b).any (fun x => x) =
        (a.any (fun x => x) || b.any (fun x => x)) := by
  induction a with
  | nil => intro b h; cases b <;> simp at h ⊢
  | cons x xs ih =>
    intro b h
    cases b with
    | nil => simp at h
    | cons y ys =>
      have h' : xs.length = ys.length := by simpa using h
      simp only [List.zipWith_cons_cons, List.any_cons, ih ys h']
      cases x <;> cases y <;> simp

theorem lookup_mem (k : String) :
    ∀ (l : List (String × DerivedFun)) (v : DerivedFun),
      List.lookup k l = some v → (k, v) ∈ l := by
  intro l
  induction l with
  | nil => intro v h; cases h
  | cons p rest ih =>
    intro v h
    rw [show (p : String × DerivedFun) = (p.1, p.2) from rfl, List.lookup_cons] at h
    by_cases hk : (k == p.1) = true
    · simp only [hk, if_true] at h
      have hk' : k = p.1 := beq_iff_eq.mp hk
      cases h
      rw [hk']
      exact List.mem_cons_self _ _
    · have hkf : (k == p.1) = false := by simpa using hk
      simp only [hkf, Bool.false_eq_true, if_false] at h
      exact List.mem_cons_of_mem _ (ih v h)

theorem resolve_of_typeKey (sel : Selector) (u : Nat) (k : String)
    (H1 : ((sel.snap.spec.fieldSpec.getD u []).map SpecEntry.aliasName).Nodup)
    (H2 : ∀ e ∈ sel.snap.spec.fieldSpec.getD u [],
        ∀ e' ∈ sel.snap.spec.fieldSpec.getD u [], e.aliasName ≠ e'.raw_name)
    (H3 : ∀ e ∈ sel.snap.spec.fieldSpec.getD u [],
        e.aliasName ∈ presentRawNames sel.snap u →
        (readAll sel.snap.files u e.raw_name).isSome = true)
    (H4 : ∀ p ∈ sel.registry, ∀ e ∈ sel.snap.spec.fieldSpec.getD u [],
        p.1 ≠ e.raw_name ∧ p.1 ≠ e.aliasName)
    (H5 : ∀ p ∈ sel.registry,
        ((p.2 (restrict sel u)).data).length = nPartOf sel.snap u)
    (hk : k ∈ typeKeys sel u) :
    ∃ a, resolve sel u k = .ok a := by
  rcases List.mem_append.mp hk with hdir | hreg
  · rcases List.mem_append.mp hdir with hpre | halias
    · have hsome := present_isSome sel.snap u k hpre
      cases hft : findTriple sel.snap.spec u k with
      | none =>
        obtain ⟨d, hd⟩ := Option.isSome_iff_exists.mp hsome
        exact ⟨⟨"", d⟩, by simp [resolve, hft, hd]⟩
      | some e =>
        have hmem := List.mem_of_find?_eq_some hft
        have hpred := List.find?_some hft
        simp only [Bool.or_eq_true, beq_iff_eq] at hpred
        rcases hpred with hraw | halia
        · have hb : (readAll sel.snap.files u e.raw_name).isSome = true := by
            rw [hraw]; exact hsome
          obtain ⟨d, hd⟩ := Option.isSome_iff_exists.mp hb
          exact ⟨⟨e.unit, d⟩, by simp [resolve, hft, hd]⟩
        · have hb := H3 e hmem (by rw [halia]; exact hpre)
          obtain ⟨d, hd⟩ := Option.isSome_iff_exists.mp hb
          exact ⟨⟨e.unit, d⟩, by simp [resolve, hft, hd]⟩
    · rw [List.mem_filterMap] at halias
      obtain ⟨e₀, he₀, heq⟩ := halias
      by_cases hb : (readAll sel.snap.files u e₀.raw_name).isSome = true
      · rw [if_pos hb, Option.some.injEq] at heq
        cases hft : findTriple sel.snap.spec u k with
        | none =>
          exfalso
          have := List.find?_eq_none.mp hft e₀ he₀
          simp only [Bool.or_eq_true, beq_iff_eq, not_or] at this
          exact this.2 heq
        | some e =>
          have hmem := List.mem_of_find?_eq_some hft
          have hpred := List.find?_some hft
          simp only [Bool.or_eq_true, beq_iff_eq] at hpred
          rcases hpred with hraw | halia
          · exact absurd (heq.trans hraw.symm) (H2 e₀ he₀ e hmem)
          · have hee : e = e₀ :=
              List.inj_on_of_nodup_map H1 hmem he₀ (by rw [halia, heq])
            have hb' : (readAll sel.snap.files u e.raw_name).isSome = true := by
              rw [hee]; exact hb
            obtain ⟨d, hd⟩ := Option.isSome_iff_exists.mp hb'
            exact ⟨⟨e.unit, d⟩, by simp [resolve, hft, hd]⟩
      · rw [if_neg hb] at heq
        cases heq
  · obtain ⟨p, hp, hpk⟩ := List.mem_map.mp hreg
    have hft : findTriple sel.snap.spec u k = none := by
      apply List.find?_eq_none.mpr
      intro e he
      simp only [Bool.or_eq_true, beq_iff_eq, not_or]
      have h4 := H4 p hp e he
      constructor
      · intro hcon
        exact h4.1 (by rw [hpk, ← hcon])
      · intro hcon
        exact h4.2 (by rw [hpk, ← hcon])
    cases hra : readAll sel.snap.files u k with
    | some d => exact ⟨⟨"", d⟩, by simp [resolve, hft, hra]⟩
    | none =>
      obtain ⟨f, hf⟩ := lookup_isSome_of_mem_fst k sel.registry hreg
      have hpmem : (k, f) ∈ sel.registry := lookup_mem k sel.registry f hf
      have h5 := H5 (k, f) hpmem
      exact ⟨f (restrict sel u), by simp [resolve, hft, hra, hf, h5]⟩

theorem gatherParts_ok_of_resolvable (sel : Selector) (key : String)
    (hres : ∀ u ∈ activeIdx sel, ∃ a, resolve sel u key = .ok a) :
    ∀ (ms : List (List Bool)) (t : Nat),
      sel.masks.drop t = ms →
      ∃ parts, gatherParts sel key t ms = .ok parts := by
  intro ms
  induction ms with
  | nil => intro t _; exact ⟨[], rfl⟩
  | cons mask rest ih =>
    intro t hdrop
    have hdrop' := drop_succ_of_drop_cons sel.masks t mask rest hdrop
    obtain ⟨parts2, hp2⟩ := ih (t + 1) hdrop'
    simp only [gatherParts]
    by_cases hany : mask.any (fun b => b) = true
    · rw [if_pos hany]
      have hlt : t < sel.masks.length := by
        by_contra hc
        have hnil : sel.masks.drop t = [] := List.drop_eq_nil_of_le (by omega)
        rw [hnil] at hdrop
        cases hdrop
      have hget : sel.masks.getD t [] = mask :=
        getD_of_drop_cons [] sel.masks t mask rest hdrop
      have hact : t ∈ activeIdx sel := by
        simp only [activeIdx, List.mem_filter, List.mem_range]
        exact ⟨hlt, by rw [hget]; exact hany⟩
      obtain ⟨a, ha⟩ := hres t hact
      refine ⟨⟨a.unit, applyMask mask a.data⟩ :: parts2, ?_⟩
      simp only [ha, hp2]
    · rw [if_neg hany]
      exact ⟨parts2, hp2⟩

/-- C6: keys() is the per-type key set (raw names, aliases, registered
derived aliases) of the active types reduced by intersection across all
active types; under well-formed FormatSpec slots and registry every key
returned by keys() is resolvable for every active type and the whole field
access succeeds; and the keys of a union of selectors over the same
snapshot are a subset of the intersection of the operands' keys. -/
theorem keys_intersection_spec :
    (∀ (sel : Selector) (k : String),
        k ∈ sel.keys ↔
          (activeIdx sel ≠ [] ∧ ∀ u ∈ activeIdx sel, k ∈ typeKeys sel u)) ∧
    (∀ (sel : Selector) (k : String),
        (∀ u ∈ activeIdx sel,
          ((sel.snap.spec.fieldSpec.getD u []).map SpecEntry.aliasName).Nodup ∧
          (∀ e ∈ sel.snap.spec.fieldSpec.getD u [],
            ∀ e' ∈ sel.snap.spec.fieldSpec.getD u [], e.aliasName ≠ e'.raw_name) ∧
          (∀ e ∈ sel.snap.spec.fieldSpec.getD u [],
            e.aliasName ∈ presentRawNames sel.snap u →
            (readAll sel.snap.files u e.raw_name).isSome = true) ∧
          (∀ p ∈ sel.registry, ∀ e ∈ sel.snap.spec.fieldSpec.getD u [],
            p.1 ≠ e.raw_name ∧ p.1 ≠ e.aliasName) ∧
          (∀ p ∈ sel.registry,
            ((p.2 (restrict sel u)).data).length = nPartOf sel.snap u)) →
        k ∈ sel.keys →
        (∀ u ∈ activeIdx sel, ∃ a, resolve sel u k = .ok a) ∧
        ∃ arr, getField sel k = .ok arr) ∧
    (∀ (A B U : Selector),
        A.snap = B.snap →
        MasksWF A → MasksWF B →
        Selector.or A B = .ok U →
        activeIdx A ≠ [] → activeIdx B ≠ [] →
        ∀ k, k ∈ U.keys → k ∈ A.keys ∧ k ∈ B.keys) := by
  refine ⟨mem_keys_iff, ?_, ?_⟩
  · intro sel k hwf hk
    have hmem := (mem_keys_iff sel k).mp hk
    have hresolve : ∀ u ∈ activeIdx sel, ∃ a, resolve sel u k = .ok a := by
      intro u hu
      obtain ⟨h1, h2, h3, h4, h5⟩ := hwf u hu
      exact resolve_of_typeKey sel u k h1 h2 h3 h4 h5 (hmem.2 u hu)
    refine ⟨hresolve, ?_⟩
    obtain ⟨parts, hp⟩ :=
      gatherParts_ok_of_resolvable sel k hresolve sel.masks 0 rfl
    exact ⟨⟨((parts.head?).map TaggedArray.unit).getD "",
      (parts.map TaggedArray.data).flatten⟩, by simp [getField, hp]⟩
  · intro A B U hsnap hA hB hU hactA hactB k hk
    have hH : A.snap.header = B.snap.header := by rw [hsnap]
    simp only [Selector.or, if_pos hH, Except.ok.injEq] at hU
    subst hU
    have hB' : List.Forall₂ (fun (m : List Bool) (n : Nat) => m.length = n)
        B.masks A.snap.header.nPart := by
      rw [hH]; exact hB
    have hpair := forall₂_length_of_shared A.masks B.masks A.snap.header.nPart hA hB'
    have hlen : A.masks.length = B.masks.length := List.Forall₂.length_eq hpair
    have hUlen : (composeMasks (fun x y => x || y) A.masks B.masks).length =
        A.masks.length := by
      simp [composeMasks, hlen]
    have hUmask : ∀ u, (composeMasks (fun x y => x || y) A.masks B.masks).getD u [] =
        List.zipWith (fun x y => x || y) (maskOf A u) (maskOf B u) :=
      fun u => maskOf_compose (fun x y => x || y) A B hlen u
    have hanyU : ∀ u, ((composeMasks (fun x y => x || y) A.masks B.masks).getD u []).any
        (fun x => x) = ((maskOf A u).any (fun x => x) || (maskOf B u).any (fun x => x)) := by
      intro u
      rw [hUmask u]
      exact any_zipWith_or (maskOf A u) (maskOf B u) (forall₂_getD_length _ _ hpair u)
    have hactUA : ∀ u, u ∈ activeIdx A →
        u ∈ activeIdx (⟨A.snap, composeMasks (fun x y => x || y) A.masks B.masks,
          composeRegistry A B⟩ : Selector) := by
      intro u hu
      simp only [activeIdx, List.mem_filter, List.mem_range] at hu ⊢
      refine ⟨by rw [hUlen]; exact hu.1, ?_⟩
      rw [hanyU u]
      simp only [maskOf, hu.2, Bool.true_or]
    have hactUB : ∀ u, u ∈ activeIdx B →
        u ∈ activeIdx (⟨A.snap, composeMasks (fun x y => x || y) A.masks B.masks,
          composeRegistry A B⟩ : Selector) := by
      intro u hu
      simp only [activeIdx, List.mem_filter, List.mem_range] at hu ⊢
      refine ⟨by rw [hUlen, hlen]; exact hu.1, ?_⟩
      rw [hanyU u]
      simp only [maskOf, hu.2, Bool.or_true]
    have hkU := (mem_keys_iff _ k).mp hk
    have hsubk : ∀ u, k ∈ typeKeys (⟨A.snap,
        composeMasks (fun x y => x || y) A.masks B.masks,
        composeRegistry A B⟩ : Selector) u →
        k ∈ typeKeys A u ∧ k ∈ typeKeys B u := by
      intro u hku
      simp only [typeKeys] at hku
      rcases List.mem_append.mp hku with hdir | hreg2
      · constructor
        · show k ∈ typeDirectKeys A.snap u ++ A.registry.map (fun p => p.1)
          exact List.mem_append_left _ hdir
        · show k ∈ typeDirectKeys B.snap u ++ B.registry.map (fun p => p.1)
          refine List.mem_append_left _ ?_
          rw [← hsnap]
          exact hdir
      · rw [List.mem_map] at hreg2
        obtain ⟨p, hp, hpk⟩ := hreg2
        simp only [composeRegistry] at hp
        have hpf := List.mem_filter.mp hp
        constructor
        · show k ∈ typeDirectKeys A.snap u ++ A.registry.map (fun p => p.1)
          exact List.mem_append_right _ (List.mem_map.mpr ⟨p, hpf.1, hpk⟩)
        · show k ∈ typeDirectKeys B.snap u ++ B.registry.map (fun p => p.1)
          have hmem : p.1 ∈ B.registry.map (fun q => q.1) := of_decide_eq_true hpf.2
          refine List.mem_append_right _ ?_
          rw [← hpk]
          exact hmem
    constructor
    · refine (mem_keys_iff A k).mpr ⟨hactA, ?_⟩
      intro u hu
      exact (hsubk u (hkU.2 u (hactUA u hu))).1
    · refine (mem_keys_iff B k).mpr ⟨hactB, ?_⟩
      intro u hu
      exact (hsubk u (hkU.2 u (hactUB u hu))).2

/-- Witness for `keys_intersection_spec` on the type-0 selector: the key m
returned by keys() resolves for every active type and the field access
succeeds. -/
theorem keys_intersection_spec_witness :
    (∀ u ∈ activeIdx gasSel, ∃ a, resolve gasSel u "m" = .ok a) ∧
    ∃ arr, getField gasSel "m" = .ok arr := by
  refine keys_intersection_spec.2.1 gasSel "m" ?_ (by decide)
  intro u hu
  have hact : activeIdx gasSel = [0] := rfl
  rw [hact, List.mem_singleton] at hu
  subst hu
  refine ⟨by decide, by decide, by decide, ?_, ?_⟩
  · intro p hp
    simp only [gasSel] at hp
    rw [List.mem_singleton] at hp
    subst hp
    decide
  · intro p hp
    simp only [gasSel] at hp
    rw [List.mem_singleton] at hp
    subst hp
    rfl

/-- C10: for every particle selector, a raw on-disk field name matching no
FormatSpec triple for any active type but available on disk for every
active type is still exposed by keys() under its raw name and is resolvable
via selector[raw_name]: per active type it resolves to the on-disk data
tagged dimensionless, and the whole field access succeeds; concretely, the
untripled field Potential behaves so on the type-0 selector. -/
theorem unrecognized_raw_key_exposed :
    (∀ (sel : Selector) (raw : String),
        activeIdx sel ≠ [] →
        (∀ u ∈ activeIdx sel, findTriple sel.snap.spec u raw = none) →
        (∀ u ∈ activeIdx sel, raw ∈ presentRawNames sel.snap u) →
        raw ∈ sel.keys ∧
        (∀ u ∈ activeIdx sel, ∃ d, resolve sel u raw = .ok ⟨"", d⟩) ∧
        ∃ arr, getField sel raw = .ok arr) ∧
    ("Potential" ∈ gasSel.keys ∧
      getField gasSel "Potential" = .ok ⟨"", [4, 5, 6]⟩) := by
  constructor
  · intro sel raw hne hft hpre
    have hres : ∀ u ∈ activeIdx sel, ∃ d, resolve sel u raw = .ok ⟨"", d⟩ := by
      intro u hu
      have hsome := present_isSome sel.snap u raw (hpre u hu)
      obtain ⟨d, hd⟩ := Option.isSome_iff_exists.mp hsome
      exact ⟨d, by simp [resolve, hft u hu, hd]⟩
    refine ⟨?_, hres, ?_⟩
    · refine (mem_keys_iff sel raw).mpr ⟨hne, ?_⟩
      intro u hu
      show raw ∈ typeDirectKeys sel.snap u ++ sel.registry.map (fun p => p.1)
      refine List.mem_append_left _ ?_
      show raw ∈ presentRawNames sel.snap u ++
        (sel.snap.spec.fieldSpec.getD u []).filterMap
          (fun e => if (readAll sel.snap.files u e.raw_name).isSome then
            some e.aliasName else none)
      exact List.mem_append_left _ (hpre u hu)
    · have hres2 : ∀ u ∈ activeIdx sel, ∃ a, resolve sel u raw = .ok a := by
        intro u hu
        obtain ⟨d, hd⟩ := hres u hu
        exact ⟨⟨"", d⟩, hd⟩
      obtain ⟨parts, hp⟩ :=
        gatherParts_ok_of_resolvable sel raw hres2 sel.masks 0 rfl
      exact ⟨⟨((parts.head?).map TaggedArray.unit).getD "",
        (parts.map TaggedArray.data).flatten⟩, by simp [getField, hp]⟩
  · exact ⟨by decide, rfl⟩

/-- Witness for `unrecognized_raw_key_exposed`: the untripled on-disk field
Potential on the type-0 selector is listed in keys(), resolves per active
type, and the whole access succeeds. -/
theorem unrecognized_raw_key_exposed_witness :
    "Potential" ∈ gasSel.keys ∧
    (∀ u ∈ activeIdx gasSel, ∃ d, resolve gasSel u "Potential" = .ok ⟨"", d⟩) ∧
    ∃ arr, getField gasSel "Potential" = .ok arr := by
  refine unrecognized_raw_key_exposed.1 gasSel "Potential" (by decide) ?_ ?_
  · intro u hu
    have hact : activeIdx gasSel = [0] := rfl
    rw [hact, List.mem_singleton] at hu
    subst hu
    rfl
  · intro u hu
    have hact : activeIdx gasSel = [0] := rfl
    rw [hact, List.mem_singleton] at hu
    subst hu
    decide

end Gizio
